import Mathlib

/-!
Verification of joergroedel/git-tools (git-ff.cc, git-recent.cc) against its
natural-language specification.

The two tools are shallowly embedded here.  Object-store primitives provided
by libgit2 (branch enumeration, merge-base queries, working-tree checkout,
reference updates, commit lookup) are modelled as fields of a `Repo`
environment; everything the C++ sources compute themselves (target
resolution, the per-branch fast-forward loop, the listing logic, the
recency sort) is translated directly from the source.
-/

namespace GitTools

/-- Commit object ids (`git_oid`): opaque values compared for equality.
Modelled as `Nat` (the value of the 160-bit id). -/
abbrev Oid := Nat

/-- Value of one hexadecimal character, as accepted by libgit2's
`git__fromhex` (used by `git_oid_fromstr`). -/
def hexVal (c : Char) : Option Nat :=
  if '0' ≤ c ∧ c ≤ '9' then some (c.toNat - '0'.toNat)
  else if 'a' ≤ c ∧ c ≤ 'f' then some (c.toNat - 'a'.toNat + 10)
  else if 'A' ≤ c ∧ c ≤ 'F' then some (c.toNat - 'A'.toNat + 10)
  else none

/-- `git_oid_fromstr(out, name)`: parse a hex-formatted object id.  It reads
exactly 40 characters (`GIT_OID_HEXSZ`) from the string and fails if any of
them is missing or is not a hex digit; characters beyond the 40th are not
examined. -/
def git_oid_fromstr (s : String) : Option Oid :=
  let cs := s.toList.take 40
  if s.length < 40 then none
  else cs.foldl (fun acc c => do
    let a ← acc
    let v ← hexVal c
    pure (a * 16 + v)) (some 0)

/-- One entry of the tag namespace as seen by `git_tag_foreach`:
its full refname (`refs/tags/...`), whether `git_tag_lookup` succeeds,
whether `git_tag_target_type` is `GIT_OBJ_COMMIT`, and the target id
returned by `git_tag_target_id`. -/
structure TagEntry where
  refname : String
  lookupOk : Bool
  isCommit : Bool
  target : Oid
deriving Repr, DecidableEq

/-- Branch namespaces: `GIT_BRANCH_LOCAL` (`loc`) and `GIT_BRANCH_REMOTE`
(`rem`). -/
inductive BranchKind where
  | loc
  | rem
deriving Repr, DecidableEq

/-- One branch reference as yielded by the branch iterator: its namespace,
short name (`git_branch_name`), whether it is checked out
(`git_branch_is_head`) and the id `git_reference_target` resolves to
(`none` models a NULL target). -/
structure BranchRef where
  kind : BranchKind
  name : String
  isHead : Bool
  tip : Option Oid
deriving Repr, DecidableEq

/-- Outcome of `git_checkout_tree` with the conflict-notification callback
installed: `ok` (returns 0), `conflict` (the notify callback returned 1,
which cancels the checkout and is propagated as the positive return value),
or `err` (a negative error). -/
inductive CheckoutRes where
  | ok
  | conflict
  | err
deriving Repr, DecidableEq

/-- The repository environment: the branch store in iterator order, the tag
namespace, and the libgit2 query/update primitives the tools call. -/
structure Repo where
  branches : List BranchRef
  tags : List TagEntry
  /-- `git_merge_base`; `none` models a negative error return. -/
  mergeBase : Oid → Oid → Option Oid
  /-- success of `git_object_lookup(..., GIT_OBJ_COMMIT)` on an id. -/
  commitLookupOk : Oid → Bool
  /-- result of `git_checkout_tree` to the target, keyed by the branch
  being fast-forwarded (the working-tree state decides it). -/
  checkout : String → CheckoutRes
  /-- success of `git_reference_set_target` for a branch. -/
  setTargetOk : String → Bool
  /-- `git_commit_lookup` followed by `git_commit_time`; `none` models a
  lookup error (negative return). -/
  commitTime : Oid → Option Int

/-- `git_branch_lookup(name, kind)` followed by `git_reference_target`:
find the branch of that name in the given namespace; `some tip` when the
reference exists. -/
def branchLookup (repo : Repo) (kind : BranchKind) (name : String) :
    Option (Option Oid) :=
  (repo.branches.find? (fun b => b.kind == kind && b.name == name)).map
    BranchRef.tip

/-- Messages the tools print; each constructor is one `cout`/`cerr` line. -/
inductive Event where
  /-- "Can't resolve <target>" (do_ff / do_list). -/
  | cantResolve (target : String)
  /-- "Can't lookup tag <name>" (tag_foreach_cb). -/
  | tagLookupFailed (name : String)
  /-- "Tag <name> doesn't point to a commit" (tag_foreach_cb). -/
  | tagNotCommit (name : String)
  /-- "Not possible to fast-forward <name>" (do_ff). -/
  | notPossible (name : String)
  /-- "Branch <name> already on <target>" (do_ff). -/
  | alreadyOn (name target : String)
  /-- "Can't fast-forward <name>, checkout conflict" (notify_cb). -/
  | conflict (name : String)
  /-- "fast-forwared <name> to <target>" (do_ff). -/
  | fastForwarded (name target : String)
  /-- "Can't get commit for branch <name>" (git-recent). -/
  | cantGetCommit (name : String)
deriving Repr, DecidableEq

/-- The branch name a per-branch report line refers to, if any. -/
def Event.branchName? : Event → Option String
  | .notPossible n => some n
  | .alreadyOn n _ => some n
  | .conflict n => some n
  | .fastForwarded n _ => some n
  | .cantGetCommit n => some n
  | _ => none

/-- `tag_foreach_cb` (git-ff.cc): invoked on every tag; a tag is relevant
only when its refname equals `refs/tags/<spec>`.  A failing tag lookup or a
non-commit target emits a message and leaves the payload untouched;
otherwise the payload records the dereferenced commit id (`p->oid`,
`p->success = true`). -/
def tag_foreach_cb (spec : String) (t : TagEntry)
    (p : Option Oid × List Event) : Option Oid × List Event :=
  if "refs/tags/" ++ spec ≠ t.refname then p
  else if ¬ t.lookupOk then (p.1, p.2 ++ [Event.tagLookupFailed t.refname])
  else if ¬ t.isCommit then (p.1, p.2 ++ [Event.tagNotCommit t.refname])
  else (some t.target, p.2)

/-- `git_tag_foreach(repo, tag_foreach_cb, &p)`: fold the callback over the
whole tag namespace.  The first component is `p.oid` when `p.success`. -/
def tagScan (repo : Repo) (spec : String) : Option Oid × List Event :=
  repo.tags.foldl (fun p t => tag_foreach_cb spec t p) (none, [])

/-- `lookup_target` (git-ff.cc): resolve a target string to a commit id.
Order: literal commit id, local branch, remote branch, tag scan.  A branch
reference found with a NULL target makes the whole lookup fail (the
`have_ref` path returns false without falling through to tags). -/
def lookup_target (repo : Repo) (name : String) : Option Oid × List Event :=
  match git_oid_fromstr name with
  | some oid => (some oid, [])
  | none =>
    match branchLookup repo .loc name with
    | some tip => (tip, [])
    | none =>
      match branchLookup repo .rem name with
      | some tip => (tip, [])
      | none => tagScan repo name

/-- Modelled from the spec's resolution contract (§4.1 / C1): a linear,
short-circuiting search over four strategies, returning the first success:
literal commit id; local branch tip; remote branch tip; the commit target
of a tag whose short name equals the input (rejecting non-commit tags). -/
def resolve_spec (repo : Repo) (name : String) : Option Oid :=
  (git_oid_fromstr name).orElse fun _ =>
    ((branchLookup repo .loc name).bind id).orElse fun _ =>
      ((branchLookup repo .rem name).bind id).orElse fun _ =>
        (repo.tags.find? (fun t => t.refname == "refs/tags/" ++ name)).bind
          fun t => if t.lookupOk ∧ t.isCommit then some t.target else none

/-- The `parameters` struct of git-ff.cc (the branch set is consulted only
for emptiness and membership, so it is carried as a list of names). -/
structure Params where
  not_ff : Bool
  only_ff : Bool
  list : Bool
  verbose : Bool
  all : Bool
  branches : List String
  target : String

/-- Tail of the `do_ff` loop body shared by the head and non-head paths:
`git_reference_set_target(&new_ref, ref, &target_oid, NULL)`; on success the
stored tip becomes the target and the success line is printed, a negative
error aborts the run. -/
def ffSetTarget (repo : Repo) (params : Params) (target : Oid)
    (b : BranchRef) : BranchRef × List Event × Int × Bool :=
  if repo.setTargetOk b.name then
    ({ b with tip := some target },
     [Event.fastForwarded b.name params.target], 0, false)
  else (b, [], -1, true)

/-- One iteration of the `do_ff` branch loop on a local branch `b`.
`err` is the value of the C `error` variable on entry; the result is the
branch as stored after the iteration, the lines printed, the value of
`error` on exit, and whether the iteration ran `goto out` (aborting the
loop).  A NULL reference target (`tip = none`) is handed to
`git_merge_base`, which rejects the invalid argument with a negative error
that the code propagates via `goto out`. -/
def ffStep (repo : Repo) (params : Params) (headOnly : Bool) (target : Oid)
    (err : Int) (b : BranchRef) : BranchRef × List Event × Int × Bool :=
  if headOnly && !b.isHead then (b, [], err, false)
  else if !params.all && !params.branches.isEmpty
      && !params.branches.contains b.name then (b, [], 0, false)
  else match b.tip with
  | none => (b, [], -1, true)
  | some tip =>
    match repo.mergeBase tip target with
    | none => (b, [], -1, true)
    | some mb =>
      if tip ≠ mb then (b, [Event.notPossible b.name], 0, false)
      else if tip = target then
        (b, [Event.alreadyOn b.name params.target], 0, false)
      else if headOnly || b.isHead then
        if ¬ repo.commitLookupOk target then (b, [], -1, true)
        else match repo.checkout b.name with
        | .err => (b, [], -1, true)
        | .conflict => (b, [Event.conflict b.name], 1, false)
        | .ok => ffSetTarget repo params target b
      else ffSetTarget repo params target b

/-- The `do_ff` iteration over the branch store.  The iterator was created
with `GIT_BRANCH_LOCAL`, so remote references are never yielded; an
aborting step (`goto out`) leaves the remaining branches untouched and
returns the error code. -/
def ffLoop (repo : Repo) (params : Params) (headOnly : Bool) (target : Oid) :
    Int → List BranchRef → List BranchRef × List Event × Int
  | err, [] => ([], [], err)
  | err, b :: bs =>
    if b.kind ≠ .loc then
      let r := ffLoop repo params headOnly target err bs
      (b :: r.1, r.2.1, r.2.2)
    else
      let s := ffStep repo params headOnly target err b
      if s.2.2.2 then (s.1 :: bs, s.2.1, s.2.2.1)
      else
        let r := ffLoop repo params headOnly target s.2.2.1 bs
        (s.1 :: r.1, s.2.1 ++ r.2.1, r.2.2)

/-- `head_only = params.branches.empty() && !params.all` (do_ff): with no
explicit branch set and no `--all`, only the checked-out branch is
processed. -/
def ffHeadOnly (params : Params) : Bool :=
  params.branches.isEmpty && !params.all

/-- Result of one `do_ff` (or `do_list`) invocation: the branch store after
the run, the lines printed, and the `int` the function returns. -/
structure FfOutcome where
  branches : List BranchRef
  events : List Event
  err : Int
deriving Repr, DecidableEq

/-- `do_ff` (git-ff.cc): resolve the target, then walk the local branches.
When `lookup_target` fails the function prints "Can't resolve" and jumps to
`out` with the `error` variable still holding its initial value 0. -/
def do_ff (repo : Repo) (params : Params) : FfOutcome :=
  match lookup_target repo params.target with
  | (none, evs) => ⟨repo.branches, evs ++ [Event.cantResolve params.target], 0⟩
  | (some target, evs) =>
    let r := ffLoop repo params (ffHeadOnly params) target 0 repo.branches
    ⟨r.1, evs ++ r.2.1, r.2.2⟩

/-- The `result` struct of git-ff.cc; default-constructed all-false when a
name is first touched through `results[name]`. -/
structure ListResult where
  ff : Bool
  current : Bool
  up2date : Bool
deriving Repr, DecidableEq

instance : Inhabited ListResult := ⟨⟨false, false, false⟩⟩

/-- Lookup in the `std::map<std::string, result>` model. -/
def mapFind : List (String × ListResult) → String → Option ListResult
  | [], _ => none
  | (k', v') :: rest, k => if k = k' then some v' else mapFind rest k

/-- Key-ordered insertion, mirroring `std::map`'s sorted key order. -/
def mapSet : List (String × ListResult) → String → ListResult →
    List (String × ListResult)
  | [], k, v => [(k, v)]
  | (k', v') :: rest, k, v =>
    if k = k' then (k, v) :: rest
    else if k < k' then (k, v) :: (k', v') :: rest
    else (k', v') :: mapSet rest k v

/-- `results[name]` followed by a field assignment: default-construct the
entry if absent, then update it. -/
def mapUpd (m : List (String × ListResult)) (k : String)
    (f : ListResult → ListResult) : List (String × ListResult) :=
  mapSet m k (f ((mapFind m k).getD default))

/-- One iteration of the `do_list` branch loop on a local branch `b`:
returns the updated results map, the `error` value and the abort flag. -/
def listStep (repo : Repo) (params : Params) (target : Oid)
    (m : List (String × ListResult)) (b : BranchRef) :
    List (String × ListResult) × Int × Bool :=
  if !params.branches.isEmpty && !params.branches.contains b.name then
    (m, 0, false)
  else match b.tip with
  | none => (m, -1, true)
  | some tip =>
    match repo.mergeBase tip target with
    | none => (m, -1, true)
    | some mb =>
      let m₁ := if tip = mb then mapUpd m b.name (fun r => { r with ff := true })
                else m
      let m₂ := if tip = target then
                  mapUpd m₁ b.name (fun r => { r with up2date := true })
                else m₁
      (mapUpd m₂ b.name (fun r => { r with current := b.isHead }), 0, false)

/-- The `do_list` iteration over the branch store (again a
`GIT_BRANCH_LOCAL` iterator, so remote references are never yielded). -/
def listLoop (repo : Repo) (params : Params) (target : Oid) :
    List (String × ListResult) → List BranchRef →
    List (String × ListResult) × Int × Bool
  | m, [] => (m, 0, false)
  | m, b :: bs =>
    if b.kind ≠ .loc then listLoop repo params target m bs
    else
      let s := listStep repo params target m b
      if s.2.2 then s
      else listLoop repo params target s.1 bs

/-- One line of `do_list` output: just the name in the non-verbose modes,
otherwise the head marker, the padded name and the verdict text. -/
inductive ListLine where
  | nameOnly (name : String)
  | alreadyOn (marked : Bool) (name target : String)
  | ffTo (marked : Bool) (name target : String)
  | nonffTo (marked : Bool) (name target : String)
deriving Repr, DecidableEq

/-- The `do_list` output loop body for one map entry: the `--not`/`--only`
filters use only the `ff` flag; in verbose mode the verdict checks
`up2date` before `ff`. -/
def renderEntry (params : Params) (k : String) (r : ListResult) :
    Option ListLine :=
  if (r.ff && params.not_ff) || (!r.ff && params.only_ff) then none
  else if !params.verbose then some (ListLine.nameOnly k)
  else if r.up2date then some (ListLine.alreadyOn r.current k params.target)
  else if r.ff then some (ListLine.ffTo r.current k params.target)
  else some (ListLine.nonffTo r.current k params.target)

/-- Result of one `do_list` invocation. -/
structure ListOutcome where
  entries : List (String × ListResult)
  maxLen : Nat
  lines : List ListLine
  events : List Event
  err : Int
deriving Repr, DecidableEq

/-- `do_list` (git-ff.cc): resolve the target, classify every selected
local branch into the results map, then compute the column width over the
collected entries and print.  As in `do_ff`, a failed `lookup_target`
returns with the `error` variable still 0; an aborted loop (`goto out`)
skips the output phase. -/
def do_list (repo : Repo) (params : Params) : ListOutcome :=
  match lookup_target repo params.target with
  | (none, evs) => ⟨[], 0, [], evs ++ [Event.cantResolve params.target], 0⟩
  | (some target, evs) =>
    let r := listLoop repo params target [] repo.branches
    if r.2.2 then ⟨r.1, 0, [], evs, r.2.1⟩
    else
      let maxLen := r.1.foldl (fun acc s => max s.1.length acc) 0
      ⟨r.1, maxLen,
       r.1.filterMap (fun s => renderEntry params s.1 s.2), evs, r.2.1⟩

/-- `main` (git-ff.cc) after option parsing and repository open: dispatch
on `--list` and map the returned `int` to the process exit status
(`if (error) goto out_err;` … `return 1`, else `return 0`). -/
def gitFfMainExit (repo : Repo) (params : Params) : Nat :=
  let err := if params.list then (do_list repo params).err
             else (do_ff repo params).err
  if err ≠ 0 then 1 else 0

/-- `is_prefix` (git-recent.cc): `str.substr(0, prefix.size()) == prefix`
guarded by a length check. -/
def is_prefix (str pfx : String) : Bool :=
  if str.length < pfx.length then false
  else str.take pfx.length == pfx

/-- The `branch` record git-recent collects per enumerated branch: name,
head flag and tip-commit timestamp.  (The source also stashes the tip oid
and a describe string used only by the `--describe` decoration, which no
claim touches; that decoration never reorders entries.) -/
structure RecEntry where
  name : String
  current : Bool
  last : Int
deriving Repr, DecidableEq

instance : Inhabited RecEntry := ⟨⟨"", false, 0⟩⟩

/-- `branch::operator<` (git-recent.cc): `last > b.last`, i.e. an entry
sorts before another iff its timestamp is strictly newer.  This is the
comparator handed to `std::sort`. -/
def recLt (a b : RecEntry) : Bool := b.last < a.last

/-- The branch-enumeration scope selected by the options:
`GIT_BRANCH_LOCAL` (default), `GIT_BRANCH_ALL` (`--all`),
`GIT_BRANCH_REMOTE` (`--remote`). -/
inductive RecFlags where
  | loc
  | all
  | rem
deriving Repr, DecidableEq

/-- The branch iterator for a scope: local refs, remote refs, or all of
them, in stored (enumeration) order. -/
def recIterate (repo : Repo) : RecFlags → List BranchRef
  | .loc => repo.branches.filter (fun b => b.kind == .loc)
  | .rem => repo.branches.filter (fun b => b.kind == .rem)
  | .all => repo.branches

/-- State of git-recent's enumeration loop: running maximum name width,
collected entries in enumeration order, and warning lines printed. -/
structure RecState where
  maxLen : Nat
  results : List RecEntry
  warnings : List Event
deriving Repr, DecidableEq

/-- The git-recent enumeration loop.  Per branch: widen `max_len` (before
any filtering), apply the prefix filter, skip a NULL reference target with
a warning, abort the run on a commit-lookup error (`goto err`), otherwise
collect the entry. -/
def recLoop (repo : Repo) (pfx : String) :
    RecState → List BranchRef → RecState × Bool
  | st, [] => (st, false)
  | st, b :: bs =>
    let st₁ := { st with maxLen := max st.maxLen b.name.length }
    if ¬ is_prefix b.name pfx then recLoop repo pfx st₁ bs
    else match b.tip with
    | none =>
      recLoop repo pfx
        { st₁ with warnings := st₁.warnings ++ [Event.cantGetCommit b.name] }
        bs
    | some oid =>
      match repo.commitTime oid with
      | none => (st₁, true)
      | some t =>
        recLoop repo pfx
          { st₁ with results := st₁.results ++ [⟨b.name, b.isHead, t⟩] } bs

/-!
The recency listing sorts with `std::sort`, so the exact output permutation
is the one produced by libstdc++'s introsort.  The algorithm is translated
below: `__move_median_to_first`, `__unguarded_partition`,
`__introsort_loop` (with its depth limit `2 * __lg n` and size threshold
16) and the finishing insertion pass.  The unguarded scans of the original
rely on sentinel elements for termination; here they carry an explicit
bound/fuel, which only matters on inputs where the C++ would read out of
range.  The depth-limit fallback `partial_sort(first, last, last)` fully
sorts the segment via a heap; it is modelled as the insertion sort of the
segment, which differs from a heapsort only in the order of
equal-comparing elements on that rare fallback path — no theorem below
depends on the tie order of that path.
-/

/-- Swap the elements at positions `i` and `j` (`std::iter_swap`);
identity when either index is out of range. -/
def swapL {α : Type} [Inhabited α] (l : List α) (i j : Nat) : List α :=
  if i < l.length ∧ j < l.length then
    (l.set i (l.getD j default)).set j (l.getD i default)
  else l

/-- `std::__move_median_to_first(result, a, b, c, comp)`: swap the median
of the values at `a`, `b`, `c` to position `result`. -/
def medianToFirst {α : Type} [Inhabited α] (lt : α → α → Bool) (l : List α)
    (result a b c : Nat) : List α :=
  let va := l.getD a default
  let vb := l.getD b default
  let vc := l.getD c default
  if lt va vb then
    if lt vb vc then swapL l result b
    else if lt va vc then swapL l result c
    else swapL l result a
  else if lt va vc then swapL l result a
  else if lt vb vc then swapL l result c
  else swapL l result b

/-- `while (comp(*first, *pivot)) ++first` with explicit fuel. -/
def scanUp {α : Type} [Inhabited α] (lt : α → α → Bool) (l : List α)
    (p : Nat) : Nat → Nat → Nat
  | i, 0 => i
  | i, fuel + 1 =>
    if lt (l.getD i default) (l.getD p default) then
      scanUp lt l p (i + 1) fuel
    else i

/-- `while (comp(*pivot, *last)) --last` with explicit fuel. -/
def scanDown {α : Type} [Inhabited α] (lt : α → α → Bool) (l : List α)
    (p : Nat) : Nat → Nat → Nat
  | j, 0 => j
  | j, fuel + 1 =>
    if lt (l.getD p default) (l.getD j default) then
      scanDown lt l p (j - 1) fuel
    else j

/-- The loop of `std::__unguarded_partition(first, last, pivot, comp)`:
advance `first`, retreat `last`, stop when they cross, else swap and
continue.  Returns the partitioned list and the split point. -/
def partLoop {α : Type} [Inhabited α] (lt : α → α → Bool) :
    Nat → List α → Nat → Nat → Nat → List α × Nat
  | 0, l, first, _, _ => (l, first)
  | fuel + 1, l, first, last, p =>
    let f1 := scanUp lt l p first (l.length + 1)
    let l1 := scanDown lt l p (last - 1) (l.length + 1)
    if f1 < l1 then partLoop lt fuel (swapL l f1 l1) (f1 + 1) l1 p
    else (l, f1)

/-- `std::__unguarded_partition_pivot(first, last, comp)`: move the median
of `first + 1`, the midpoint and `last - 1` to `first`, then partition
`[first + 1, last)` against it. -/
def partitionPivot {α : Type} [Inhabited α] (lt : α → α → Bool) (l : List α)
    (first last : Nat) : List α × Nat :=
  let mid := first + (last - first) / 2
  let l1 := medianToFirst lt l first (first + 1) mid (last - 1)
  partLoop lt (l1.length + 1) l1 (first + 1) last first

/-- Insertion of one value into the already-sorted prefix, scanning from
its right end (`std::__unguarded_linear_insert`): shift while the value
compares before the scanned element, place it after the first element it
does not compare before.  The prefix is kept in reversed order. -/
def linInsertRev {α : Type} (lt : α → α → Bool) (v : α) :
    List α → List α
  | [] => [v]
  | x :: xs => if lt v x then x :: linInsertRev lt v xs else v :: x :: xs

/-- The finishing insertion pass (`std::__final_insertion_sort`): insert
each element in turn into the sorted prefix, left to right.  The source
splits this into a guarded pass over the first 16 elements and an
unguarded pass over the rest; both place each element after the rightmost
earlier element it does not compare before, which is what one pass of
`linInsertRev` does. -/
def insertionRun {α : Type} (lt : α → α → Bool) :
    List α → List α → List α
  | racc, [] => racc.reverse
  | racc, x :: xs => insertionRun lt (linInsertRev lt x racc) xs

/-- `partial_sort(first, last, last)` — the depth-limit fallback of
`__introsort_loop`: the segment `[first, last)` fully sorted. -/
def heapSortSeg {α : Type} [Inhabited α] (lt : α → α → Bool) (l : List α)
    (first last : Nat) : List α :=
  l.take first ++ insertionRun lt [] ((l.drop first).take (last - first))
    ++ l.drop last

/-- `std::__introsort_loop(first, last, depth_limit, comp)`: while the
segment is longer than 16, either fall back to a heap sort when the depth
limit is exhausted, or partition and recurse (right segment recursively,
left segment via the loop), decrementing the depth limit each round. -/
def introsortLoop {α : Type} [Inhabited α] (lt : α → α → Bool) :
    Nat → List α → Nat → Nat → List α
  | 0, l, first, last =>
    if last - first ≤ 16 then l else heapSortSeg lt l first last
  | d + 1, l, first, last =>
    if last - first ≤ 16 then l
    else
      let pc := partitionPivot lt l first last
      introsortLoop lt d (introsortLoop lt d pc.1 pc.2 last) first pc.2

/-- `std::__lg(n)` — the floor of the base-2 logarithm — written with an
explicit fuel argument so that it unfolds by structural recursion. -/
def lgAux : Nat → Nat → Nat
  | 0, _ => 0
  | fuel + 1, n => if 2 ≤ n then lgAux fuel (n / 2) + 1 else 0

/-- `std::__lg(n)`. -/
def lg (n : Nat) : Nat := lgAux n n

/-- `std::sort(first, last, comp)` as implemented by libstdc++:
`__introsort_loop` with depth limit `2 * __lg(n)` followed by
`__final_insertion_sort`; nothing to do on an empty range. -/
def cppSort {α : Type} [Inhabited α] (lt : α → α → Bool) (l : List α) :
    List α :=
  if l.isEmpty then l
  else insertionRun lt []
    (introsortLoop lt (2 * lg l.length) l 0 l.length)

/-- Result of one git-recent invocation: the entries in output order, the
column width `max_len`, the warning lines, and whether the run aborted
with an error (`goto err`, exit status 1, nothing printed). -/
structure RecOutcome where
  entries : List RecEntry
  maxLen : Nat
  warnings : List Event
  fatal : Bool
deriving Repr, DecidableEq

/-- `main` (git-recent.cc) after option parsing and repository open:
enumerate, collect, `std::sort` the collected entries, and print them in
sorted order.  (The `--describe` decoration and the time formatting of the
print loop do not affect the order or the fields modelled here.) -/
def recentRun (repo : Repo) (flags : RecFlags) (pfx : String) : RecOutcome :=
  let r := recLoop repo pfx ⟨0, [], []⟩ (recIterate repo flags)
  if r.2 then ⟨r.1.results, r.1.maxLen, r.1.warnings, true⟩
  else ⟨cppSort recLt r.1.results, r.1.maxLen, r.1.warnings, false⟩

/-! ### Permutation and sortedness of the embedded `std::sort` -/

theorem cons_getD_set_perm {α : Type} (d : α) :
    ∀ (t : List α) (m : Nat) (a : α), m < t.length →
      List.Perm (t.getD m d :: t.set m a) (a :: t) := by
  intro t
  induction t with
  | nil => intro m a h; simp at h
  | cons b t ih =>
    intro m a h
    cases m with
    | zero => simpa using List.Perm.swap a b t
    | succ k =>
      simp only [List.getD_cons_succ, List.set_cons_succ]
      exact (List.Perm.swap b (t.getD k d) (t.set k a)).trans
        ((List.Perm.cons b (ih k a (by simpa using h))).trans
          (List.Perm.swap a b t))

theorem swapL_perm {α : Type} [Inhabited α] (l : List α) (i j : Nat) :
    List.Perm (swapL l i j) l := by
  unfold swapL
  split
  case isFalse => exact List.Perm.refl l
  case isTrue h =>
    induction l generalizing i j with
    | nil => simp at h
    | cons a t ih =>
      cases i with
      | zero =>
        cases j with
        | zero => simp
        | succ m =>
          simp only [List.getD_cons_succ, List.set_cons_zero,
            List.getD_cons_zero, List.set_cons_succ]
          exact cons_getD_set_perm default t m a (by simpa using h.2)
      | succ n =>
        cases j with
        | zero =>
          simp only [List.getD_cons_zero, List.set_cons_succ,
            List.getD_cons_succ, List.set_cons_zero]
          exact cons_getD_set_perm default t n a (by simpa using h.1)
        | succ m =>
          simp only [List.getD_cons_succ, List.set_cons_succ]
          exact List.Perm.cons a
            (ih n m ⟨by simpa using h.1, by simpa using h.2⟩)

theorem medianToFirst_perm {α : Type} [Inhabited α] (lt : α → α → Bool)
    (l : List α) (result a b c : Nat) :
    List.Perm (medianToFirst lt l result a b c) l := by
  simp only [medianToFirst]
  split_ifs <;> exact swapL_perm ..

theorem partLoop_perm {α : Type} [Inhabited α] (lt : α → α → Bool) :
    ∀ (fuel : Nat) (l : List α) (first last p : Nat),
      List.Perm (partLoop lt fuel l first last p).1 l := by
  intro fuel
  induction fuel with
  | zero => intro l first last p; exact List.Perm.refl l
  | succ f ih =>
    intro l first last p
    simp only [partLoop]
    split
    case isTrue =>
      exact ((ih _ _ _ _).trans (swapL_perm ..))
    case isFalse => exact List.Perm.refl l

theorem partitionPivot_perm {α : Type} [Inhabited α] (lt : α → α → Bool)
    (l : List α) (first last : Nat) :
    List.Perm (partitionPivot lt l first last).1 l := by
  unfold partitionPivot
  exact (partLoop_perm ..).trans (medianToFirst_perm ..)

theorem linInsertRev_perm {α : Type} (lt : α → α → Bool) (v : α) :
    ∀ racc : List α, List.Perm (linInsertRev lt v racc) (v :: racc) := by
  intro racc
  induction racc with
  | nil => exact List.Perm.refl [v]
  | cons x xs ih =>
    unfold linInsertRev
    split
    case isTrue =>
      exact (List.Perm.cons x ih).trans (List.Perm.swap v x xs)
    case isFalse => exact List.Perm.refl _

theorem insertionRun_perm {α : Type} (lt : α → α → Bool) :
    ∀ (rest racc : List α),
      List.Perm (insertionRun lt racc rest) (racc.reverse ++ rest) := by
  intro rest
  induction rest with
  | nil => intro racc; simp [insertionRun]
  | cons x xs ih =>
    intro racc
    unfold insertionRun
    refine (ih _).trans ?_
    have h₁ : List.Perm ((linInsertRev lt x racc).reverse ++ xs)
        ((x :: racc) ++ xs) :=
      List.Perm.append_right xs
        ((List.reverse_perm _).trans (linInsertRev_perm lt x racc))
    refine h₁.trans ?_
    have h₂ : List.Perm (racc.reverse ++ (x :: xs))
        (x :: (racc.reverse ++ xs)) := List.perm_middle
    have h₃ : List.Perm (x :: (racc.reverse ++ xs)) (x :: (racc ++ xs)) :=
      List.Perm.cons x (List.Perm.append_right xs (List.reverse_perm racc))
    exact (h₂.trans h₃).symm

theorem heapSortSeg_perm {α : Type} [Inhabited α] (lt : α → α → Bool)
    (l : List α) (first last : Nat) (h : first ≤ last) :
    List.Perm (heapSortSeg lt l first last) l := by
  unfold heapSortSeg
  have hmid : List.Perm (insertionRun lt [] ((l.drop first).take (last - first)))
      ((l.drop first).take (last - first)) := by
    simpa using insertionRun_perm lt ((l.drop first).take (last - first)) []
  have hsplit :
      l.take first ++ ((l.drop first).take (last - first) ++ l.drop last) = l := by
    have hdd : (l.drop first).drop (last - first) = l.drop last := by
      rw [List.drop_drop]
      congr 1
      omega
    conv_rhs => rw [← List.take_append_drop first l,
      ← List.take_append_drop (last - first) (l.drop first)]
    rw [hdd]
  calc List.Perm
        (l.take first ++ insertionRun lt [] ((l.drop first).take (last - first))
          ++ l.drop last)
        (l.take first ++ ((l.drop first).take (last - first) ++ l.drop last)) := by
        rw [List.append_assoc]
        exact List.Perm.append_left _ (List.Perm.append_right _ hmid)
    _ = l := hsplit

theorem introsortLoop_perm {α : Type} [Inhabited α] (lt : α → α → Bool) :
    ∀ (d : Nat) (l : List α) (first last : Nat),
      List.Perm (introsortLoop lt d l first last) l := by
  intro d
  induction d with
  | zero =>
    intro l first last
    unfold introsortLoop
    split
    case isTrue => exact List.Perm.refl l
    case isFalse h => exact heapSortSeg_perm lt l first last (by omega)
  | succ d ih =>
    intro l first last
    unfold introsortLoop
    split
    case isTrue => exact List.Perm.refl l
    case isFalse =>
      exact ((ih ..).trans (ih ..)).trans (partitionPivot_perm ..)

theorem cppSort_perm {α : Type} [Inhabited α] (lt : α → α → Bool)
    (l : List α) : List.Perm (cppSort lt l) l := by
  unfold cppSort
  split
  case isTrue => exact List.Perm.refl l
  case isFalse =>
    refine (?_ : List.Perm _ (introsortLoop lt (2 * lg l.length) l 0
      l.length)).trans (introsortLoop_perm ..)
    simpa using insertionRun_perm lt
      (introsortLoop lt (2 * lg l.length) l 0 l.length) []

theorem linInsertRev_pairwise {α : Type} (lt : α → α → Bool)
    (hasym : ∀ a b, lt a b = true → lt b a = false)
    (hneg : ∀ a b c, lt a b = false → lt b c = false → lt a c = false)
    (v : α) :
    ∀ racc : List α, racc.Pairwise (fun a b => lt a b = false) →
      (linInsertRev lt v racc).Pairwise (fun a b => lt a b = false) := by
  intro racc
  induction racc with
  | nil => intro _; simp [linInsertRev]
  | cons x xs ih =>
    intro h
    rw [List.pairwise_cons] at h
    unfold linInsertRev
    split
    case isTrue hvx =>
      rw [List.pairwise_cons]
      refine ⟨?_, ih h.2⟩
      intro y hy
      rcases List.mem_cons.mp (((linInsertRev_perm lt v xs).mem_iff).mp hy)
        with rfl | hy₂
      · exact hasym y x hvx
      · exact h.1 y hy₂
    case isFalse hvx =>
      rw [List.pairwise_cons]
      refine ⟨?_, List.pairwise_cons.mpr h⟩
      intro y hy
      rcases List.mem_cons.mp hy with rfl | hy₂
      · exact Bool.eq_false_iff.mpr hvx
      · exact hneg v x y (Bool.eq_false_iff.mpr hvx) (h.1 y hy₂)

theorem insertionRun_pairwise {α : Type} (lt : α → α → Bool)
    (hasym : ∀ a b, lt a b = true → lt b a = false)
    (hneg : ∀ a b c, lt a b = false → lt b c = false → lt a c = false) :
    ∀ (rest racc : List α), racc.Pairwise (fun a b => lt a b = false) →
      (insertionRun lt racc rest).Pairwise (fun a b => lt b a = false) := by
  intro rest
  induction rest with
  | nil =>
    intro racc h
    unfold insertionRun
    exact (List.pairwise_reverse).mpr h
  | cons x xs ih =>
    intro racc h
    unfold insertionRun
    exact ih _ (linInsertRev_pairwise lt hasym hneg x racc h)

theorem cppSort_pairwise {α : Type} [Inhabited α] (lt : α → α → Bool)
    (hasym : ∀ a b, lt a b = true → lt b a = false)
    (hneg : ∀ a b c, lt a b = false → lt b c = false → lt a c = false)
    (l : List α) :
    (cppSort lt l).Pairwise (fun a b => lt b a = false) := by
  unfold cppSort
  split
  case isTrue h => simp [List.isEmpty_iff.mp h]
  case isFalse =>
    exact insertionRun_pairwise lt hasym hneg _ [] List.Pairwise.nil

/-! ### Structural lemmas about the `do_ff` loop -/

theorem ffStep_events_name (repo : Repo) (params : Params) (ho : Bool)
    (target : Oid) (err : Int) (b : BranchRef) :
    ∀ ev ∈ (ffStep repo params ho target err b).2.1,
      ev.branchName? = some b.name := by
  intro ev hev
  unfold ffStep ffSetTarget at hev
  repeat' split at hev
  all_goals simp_all [Event.branchName?]

theorem ffStep_abort_err (repo : Repo) (params : Params) (ho : Bool)
    (target : Oid) (err : Int) (b : BranchRef) :
    (ffStep repo params ho target err b).2.2.2 = true →
      (ffStep repo params ho target err b).2.2.1 = -1 := by
  unfold ffStep ffSetTarget
  repeat' split
  all_goals simp

theorem ffLoop_frame (repo : Repo) (params : Params) (ho : Bool)
    (target : Oid) :
    ∀ (bs : List BranchRef) (err : Int),
      List.Forall₂
        (fun b b' => b' = b ∨ ∃ e, b' = (ffStep repo params ho target e b).1)
        bs (ffLoop repo params ho target err bs).1 := by
  intro bs
  induction bs with
  | nil => intro err; exact List.Forall₂.nil
  | cons b bs ih =>
    intro err
    simp only [ffLoop]
    split
    case isTrue => exact List.Forall₂.cons (Or.inl rfl) (ih err)
    case isFalse =>
      split
      case isTrue =>
        exact List.Forall₂.cons (Or.inr ⟨err, rfl⟩)
          (List.forall₂_same.mpr (fun x _ => Or.inl rfl))
      case isFalse =>
        exact List.Forall₂.cons (Or.inr ⟨err, rfl⟩) (ih _)

theorem ffLoop_rem_frame (repo : Repo) (params : Params) (ho : Bool)
    (target : Oid) :
    ∀ (bs : List BranchRef) (err : Int),
      List.Forall₂ (fun b b' => b.kind ≠ .loc → b' = b)
        bs (ffLoop repo params ho target err bs).1 := by
  intro bs
  induction bs with
  | nil => intro err; exact List.Forall₂.nil
  | cons b bs ih =>
    intro err
    simp only [ffLoop]
    split
    case isTrue => exact List.Forall₂.cons (fun _ => rfl) (ih err)
    case isFalse hk =>
      split
      case isTrue =>
        exact List.Forall₂.cons (fun h => absurd (by simpa using hk) h.elim)
          (List.forall₂_same.mpr (fun x _ => fun _ => rfl))
      case isFalse =>
        exact List.Forall₂.cons (fun h => absurd (by simpa using hk) h.elim)
          (ih _)

theorem ffLoop_events_name (repo : Repo) (params : Params) (ho : Bool)
    (target : Oid) :
    ∀ (bs : List BranchRef) (err : Int),
      ∀ ev ∈ (ffLoop repo params ho target err bs).2.1,
        ∃ b ∈ bs, b.kind = .loc ∧ ev.branchName? = some b.name := by
  intro bs
  induction bs with
  | nil => intro err ev hev; simp [ffLoop] at hev
  | cons b bs ih =>
    intro err ev hev
    simp only [ffLoop] at hev
    split at hev
    case isTrue =>
      obtain ⟨c, hc, hcl, hcn⟩ := ih err ev hev
      exact ⟨c, List.mem_cons_of_mem b hc, hcl, hcn⟩
    case isFalse hk =>
      split at hev
      case isTrue =>
        exact ⟨b, List.mem_cons_self b bs, by simpa using hk,
          ffStep_events_name repo params ho target err b ev hev⟩
      case isFalse =>
        rcases List.mem_append.mp hev with h | h
        · exact ⟨b, List.mem_cons_self b bs, by simpa using hk,
            ffStep_events_name repo params ho target err b ev h⟩
        · obtain ⟨c, hc, hcl, hcn⟩ := ih _ ev h
          exact ⟨c, List.mem_cons_of_mem b hc, hcl, hcn⟩

theorem ffLoop_events_of_mem (repo : Repo) (params : Params) (ho : Bool)
    (target : Oid) (b : BranchRef) (evs₀ : List Event) (eOut : Int)
    (hstep : ∀ e, ffStep repo params ho target e b = (b, evs₀, eOut, false))
    (hk : b.kind = .loc) :
    ∀ (bs : List BranchRef) (err : Int), b ∈ bs →
      0 ≤ (ffLoop repo params ho target err bs).2.2 →
      ∀ ev ∈ evs₀, ev ∈ (ffLoop repo params ho target err bs).2.1 := by
  intro bs
  induction bs with
  | nil => intro err hb; simp at hb
  | cons c cs ih =>
    intro err hb herr ev hev
    rcases List.mem_cons.mp hb with rfl | hb₂
    · simp only [ffLoop] at herr ⊢
      rw [if_neg (by simp [hk]), hstep err] at herr ⊢
      simpa using Or.inl hev
    · simp only [ffLoop] at herr ⊢
      by_cases hkind : c.kind = BranchKind.loc
      · rw [if_neg (by simp [hkind])] at herr ⊢
        by_cases habort : (ffStep repo params ho target err c).2.2.2 = true
        · rw [if_pos habort] at herr
          rw [ffStep_abort_err repo params ho target err c habort] at herr
          simp at herr
        · rw [if_neg habort] at herr ⊢
          exact List.mem_append_right _ (ih _ hb₂ herr ev hev)
      · rw [if_pos (by simp [hkind])] at herr ⊢
        exact ih err hb₂ herr ev hev

/-! ### Structural lemmas about the `do_list` map -/

theorem mapFind_mapSet_self (m : List (String × ListResult)) (k : String)
    (v : ListResult) : mapFind (mapSet m k v) k = some v := by
  induction m with
  | nil => simp [mapSet, mapFind]
  | cons p rest ih =>
    simp only [mapSet]
    split
    case isTrue h => simp [mapFind]
    case isFalse h =>
      split
      case isTrue => simp [mapFind]
      case isFalse => simp [mapFind, h, ih]

theorem mapFind_mapUpd_self (m : List (String × ListResult)) (k : String)
    (f : ListResult → ListResult) :
    mapFind (mapUpd m k f) k = some (f ((mapFind m k).getD default)) :=
  mapFind_mapSet_self m k _

theorem mapSet_keys (k' : String) (r : ListResult) :
    ∀ (m : List (String × ListResult)) (k : String) (v : ListResult),
      (k', r) ∈ mapSet m k v → k' = k ∨ ∃ r₂, (k', r₂) ∈ m := by
  intro m
  induction m with
  | nil =>
    intro k v h
    simp only [mapSet, List.mem_singleton] at h
    exact Or.inl (congrArg Prod.fst h)
  | cons p rest ih =>
    intro k v h
    simp only [mapSet] at h
    split at h
    case isTrue =>
      rcases List.mem_cons.mp h with h₁ | h₁
      · exact Or.inl (congrArg Prod.fst h₁)
      · exact Or.inr ⟨r, List.mem_cons_of_mem p h₁⟩
    case isFalse =>
      split at h
      case isTrue =>
        rcases List.mem_cons.mp h with h₁ | h₁
        · exact Or.inl (congrArg Prod.fst h₁)
        · exact Or.inr ⟨r, h₁⟩
      case isFalse =>
        rcases List.mem_cons.mp h with h₁ | h₁
        · exact Or.inr ⟨r, h₁ ▸ List.mem_cons_self p rest⟩
        · rcases ih k v h₁ with h₂ | ⟨r₂, h₂⟩
          · exact Or.inl h₂
          · exact Or.inr ⟨r₂, List.mem_cons_of_mem p h₂⟩

theorem mapUpd_keys (m : List (String × ListResult)) (k : String)
    (f : ListResult → ListResult) (k' : String) (r : ListResult)
    (h : (k', r) ∈ mapUpd m k f) : k' = k ∨ ∃ r₂, (k', r₂) ∈ m :=
  mapSet_keys k' r m k _ h

theorem listStep_keys (repo : Repo) (params : Params) (target : Oid)
    (m : List (String × ListResult)) (b : BranchRef) (k : String)
    (r : ListResult) (h : (k, r) ∈ (listStep repo params target m b).1) :
    k = b.name ∨ ∃ r₂, (k, r₂) ∈ m := by
  have hm : ∀ r', (k, r') ∈ m → k = b.name ∨ ∃ r₂, (k, r₂) ∈ m :=
    fun r' h' => Or.inr ⟨r', h'⟩
  have hin : ∀ (m' : List (String × ListResult)),
      (∀ r', (k, r') ∈ m' → k = b.name ∨ ∃ r₂, (k, r₂) ∈ m) →
      ∀ (f : ListResult → ListResult) (r' : ListResult),
        (k, r') ∈ mapUpd m' b.name f → k = b.name ∨ ∃ r₂, (k, r₂) ∈ m := by
    intro m' hP f r' h'
    rcases mapUpd_keys m' b.name f k r' h' with h₁ | ⟨r₂, h₂⟩
    · exact Or.inl h₁
    · exact hP r₂ h₂
  have hite : ∀ (c : Prop) (inst : Decidable c)
      (m₁ m₂ : List (String × ListResult)),
      (∀ r', (k, r') ∈ m₁ → k = b.name ∨ ∃ r₂, (k, r₂) ∈ m) →
      (∀ r', (k, r') ∈ m₂ → k = b.name ∨ ∃ r₂, (k, r₂) ∈ m) →
      ∀ r', (k, r') ∈ (@ite _ c inst m₁ m₂) →
        k = b.name ∨ ∃ r₂, (k, r₂) ∈ m := by
    intro c inst m₁ m₂ h₁ h₂ r' h'
    split at h'
    · exact h₁ r' h'
    · exact h₂ r' h'
  simp only [listStep] at h
  split at h
  case isTrue => exact Or.inr ⟨r, h⟩
  case isFalse =>
    split at h
    case h_1 => exact Or.inr ⟨r, h⟩
    case h_2 =>
      split at h
      case h_1 => exact Or.inr ⟨r, h⟩
      case h_2 =>
        dsimp only at h
        exact hin _
          (hite _ _ _ _
            (hin _ (hite _ _ _ _ (hin _ hm _) hm) _)
            (hite _ _ _ _ (hin _ hm _) hm)) _ _ h

theorem listLoop_keys (repo : Repo) (params : Params) (target : Oid) :
    ∀ (bs : List BranchRef) (m : List (String × ListResult)) (k : String)
      (r : ListResult), (k, r) ∈ (listLoop repo params target m bs).1 →
      (∃ r₂, (k, r₂) ∈ m) ∨ ∃ b ∈ bs, b.kind = .loc ∧ b.name = k := by
  intro bs
  induction bs with
  | nil =>
    intro m k r h
    simp only [listLoop] at h
    exact Or.inl ⟨r, h⟩
  | cons b bs ih =>
    intro m k r h
    simp only [listLoop] at h
    split at h
    case isTrue =>
      rcases ih m k r h with h₁ | ⟨c, hc, hcl, hcn⟩
      · exact Or.inl h₁
      · exact Or.inr ⟨c, List.mem_cons_of_mem b hc, hcl, hcn⟩
    case isFalse hk =>
      split at h
      case isTrue =>
        rcases listStep_keys repo params target m b k r h with h₁ | h₁
        · exact Or.inr ⟨b, List.mem_cons_self b bs, by simpa using hk, h₁.symm⟩
        · exact Or.inl h₁
      case isFalse =>
        rcases ih _ k r h with ⟨r₂, h₂⟩ | ⟨c, hc, hcl, hcn⟩
        · rcases listStep_keys repo params target m b k r₂ h₂ with h₁ | h₁
          · exact Or.inr ⟨b, List.mem_cons_self b bs, by simpa using hk,
              h₁.symm⟩
          · exact Or.inl h₁
        · exact Or.inr ⟨c, List.mem_cons_of_mem b hc, hcl, hcn⟩

/-! ### Evaluation lemmas for single `do_ff` iterations -/

theorem ffStep_filters_false (params : Params) (ho : Bool) (b : BranchRef)
    (hsel₁ : ho = true → b.isHead = true)
    (hsel₃ : params.branches.isEmpty = false →
      params.branches.contains b.name = true) :
    (ho && !b.isHead) = false ∧
    (!params.all && !params.branches.isEmpty
      && !params.branches.contains b.name) = false := by
  constructor
  · cases hho : ho with
    | false => rfl
    | true => simp [hsel₁ hho]
  · cases hemp : params.branches.isEmpty with
    | true => simp [hemp]
    | false =>
      have hc := hsel₃ hemp
      rw [hc]
      simp

theorem ffStep_nulltip (repo : Repo) (params : Params) (ho : Bool)
    (target : Oid) (err : Int) (b : BranchRef)
    (h₁ : (ho && !b.isHead) = false)
    (h₂ : (!params.all && !params.branches.isEmpty
      && !params.branches.contains b.name) = false)
    (htip : b.tip = none) :
    ffStep repo params ho target err b = (b, [], -1, true) := by
  unfold ffStep
  rw [h₁, h₂, htip]
  simp

theorem ffStep_diverged (repo : Repo) (params : Params) (ho : Bool)
    (target : Oid) (err : Int) (b : BranchRef) (tip mb : Oid)
    (h₁ : (ho && !b.isHead) = false)
    (h₂ : (!params.all && !params.branches.isEmpty
      && !params.branches.contains b.name) = false)
    (htip : b.tip = some tip)
    (hmb : repo.mergeBase tip target = some mb)
    (hne : tip ≠ mb) :
    ffStep repo params ho target err b =
      (b, [Event.notPossible b.name], 0, false) := by
  unfold ffStep
  rw [h₁, h₂, htip]
  simp [hmb, hne]

theorem ffStep_uptodate (repo : Repo) (params : Params) (ho : Bool)
    (target : Oid) (err : Int) (b : BranchRef)
    (h₁ : (ho && !b.isHead) = false)
    (h₂ : (!params.all && !params.branches.isEmpty
      && !params.branches.contains b.name) = false)
    (htip : b.tip = some target)
    (hmb : repo.mergeBase target target = some target) :
    ffStep repo params ho target err b =
      (b, [Event.alreadyOn b.name params.target], 0, false) := by
  unfold ffStep
  rw [h₁, h₂, htip]
  simp [hmb]

theorem ffStep_conflict (repo : Repo) (params : Params) (ho : Bool)
    (target : Oid) (err : Int) (b : BranchRef) (tip : Oid)
    (h₁ : (ho && !b.isHead) = false)
    (h₂ : (!params.all && !params.branches.isEmpty
      && !params.branches.contains b.name) = false)
    (hhead : b.isHead = true)
    (htip : b.tip = some tip)
    (hmb : repo.mergeBase tip target = some tip)
    (hne : tip ≠ target)
    (hlk : repo.commitLookupOk target = true)
    (hcf : repo.checkout b.name = CheckoutRes.conflict) :
    ffStep repo params ho target err b =
      (b, [Event.conflict b.name], 1, false) := by
  unfold ffStep
  rw [h₁, h₂, htip]
  simp [hmb, hne, hhead, hlk, hcf]

theorem ffLoop_cons_abort (repo : Repo) (params : Params) (ho : Bool)
    (target : Oid) (err : Int) (b : BranchRef) (bs : List BranchRef)
    (b' : BranchRef) (evs : List Event) (e : Int)
    (hk : b.kind = BranchKind.loc)
    (hstep : ffStep repo params ho target err b = (b', evs, e, true)) :
    ffLoop repo params ho target err (b :: bs) = (b' :: bs, evs, e) := by
  simp [ffLoop, hk, hstep]

theorem ffLoop_cons_cont (repo : Repo) (params : Params) (ho : Bool)
    (target : Oid) (err : Int) (b : BranchRef) (bs : List BranchRef)
    (b' : BranchRef) (evs : List Event) (e : Int)
    (hk : b.kind = BranchKind.loc)
    (hstep : ffStep repo params ho target err b = (b', evs, e, false)) :
    ffLoop repo params ho target err (b :: bs) =
      (b' :: (ffLoop repo params ho target e bs).1,
       evs ++ (ffLoop repo params ho target e bs).2.1,
       (ffLoop repo params ho target e bs).2.2) := by
  simp [ffLoop, hk, hstep]

/-! ### The `max_len` accounting of git-recent -/

theorem recLoop_maxLen (repo : Repo) (pfx : String) :
    ∀ (bs : List BranchRef) (st : RecState),
      (recLoop repo pfx st bs).2 = false →
      (recLoop repo pfx st bs).1.maxLen =
        bs.foldl (fun m b => max m b.name.length) st.maxLen := by
  intro bs
  induction bs with
  | nil => intro st _; rfl
  | cons b bs ih =>
    intro st h
    simp only [recLoop, List.foldl_cons] at h ⊢
    by_cases hpf : is_prefix b.name pfx = true
    · rw [if_neg (by simp [hpf])] at h ⊢
      cases htip : b.tip with
      | none =>
        simp only [htip] at h ⊢
        exact ih _ h
      | some oid =>
        cases hct : repo.commitTime oid with
        | none =>
          simp only [htip, hct] at h
          simp at h
        | some tm =>
          simp only [htip, hct] at h ⊢
          exact ih _ h
    · rw [if_pos (by simp [hpf])] at h ⊢
      exact ih _ h

/-! ### The tag scan of `lookup_target` -/

theorem tag_foreach_cb_fst_nomatch (name : String) (t : TagEntry)
    (p : Option Oid × List Event)
    (h : ¬ (t.lookupOk = true ∧ t.isCommit = true)) :
    (tag_foreach_cb name t p).1 = p.1 := by
  unfold tag_foreach_cb
  split
  · rfl
  · split
    · rfl
    · split
      · rfl
      · simp_all

theorem tagFold_none (name : String) :
    ∀ (ts : List TagEntry) (p : Option Oid × List Event), p.1 = none →
      (∀ t ∈ ts, t.refname = "refs/tags/" ++ name →
        ¬ (t.lookupOk = true ∧ t.isCommit = true)) →
      (ts.foldl (fun p t => tag_foreach_cb name t p) p).1 = none := by
  intro ts
  induction ts with
  | nil => intro p hp _; exact hp
  | cons t ts ih =>
    intro p hp hall
    rw [List.foldl_cons]
    refine ih _ ?_ (fun t₂ ht₂ => hall t₂ (List.mem_cons_of_mem t ht₂))
    by_cases hn : "refs/tags/" ++ name = t.refname
    · rw [tag_foreach_cb_fst_nomatch name t p
        (hall t (List.mem_cons_self t ts) hn.symm)]
      exact hp
    · unfold tag_foreach_cb
      rw [if_pos hn]
      exact hp

theorem tagScan_none (repo : Repo) (name : String)
    (h : ∀ t ∈ repo.tags, t.refname = "refs/tags/" ++ name →
      ¬ (t.lookupOk = true ∧ t.isCommit = true)) :
    (tagScan repo name).1 = none :=
  tagFold_none name repo.tags (none, []) rfl h

theorem tag_foreach_cb_events (name : String) (t : TagEntry)
    (p : Option Oid × List Event) :
    ∃ l, (tag_foreach_cb name t p).2 = p.2 ++ l ∧
      ∀ ev ∈ l, ev.branchName? = none := by
  unfold tag_foreach_cb
  split
  · exact ⟨[], by simp, by simp⟩
  · split
    · exact ⟨[Event.tagLookupFailed t.refname], rfl,
        by simp [Event.branchName?]⟩
    · split
      · exact ⟨[Event.tagNotCommit t.refname], rfl,
          by simp [Event.branchName?]⟩
      · exact ⟨[], by simp, by simp⟩

theorem tagFold_events (name : String) :
    ∀ (ts : List TagEntry) (p : Option Oid × List Event),
      ∃ l, (ts.foldl (fun p t => tag_foreach_cb name t p) p).2 = p.2 ++ l ∧
        ∀ ev ∈ l, ev.branchName? = none := by
  intro ts
  induction ts with
  | nil => intro p; exact ⟨[], by simp, by simp⟩
  | cons t ts ih =>
    intro p
    rw [List.foldl_cons]
    obtain ⟨l₁, hl₁, hn₁⟩ := tag_foreach_cb_events name t p
    obtain ⟨l₂, hl₂, hn₂⟩ := ih (tag_foreach_cb name t p)
    refine ⟨l₁ ++ l₂, by rw [hl₂, hl₁, List.append_assoc], ?_⟩
    intro ev hev
    rcases List.mem_append.mp hev with h | h
    · exact hn₁ ev h
    · exact hn₂ ev h

theorem tagScan_event (repo : Repo) (name : String) (t : TagEntry)
    (ht : t ∈ repo.tags) (hname : t.refname = "refs/tags/" ++ name)
    (hlk : t.lookupOk = true) (hnc : t.isCommit = false) :
    Event.tagNotCommit t.refname ∈ (tagScan repo name).2 := by
  obtain ⟨s, u, hsu⟩ := List.append_of_mem ht
  unfold tagScan
  rw [hsu, List.foldl_append, List.foldl_cons]
  set p₁ := s.foldl (fun p t => tag_foreach_cb name t p) (none, []) with hp₁
  have hstep : (tag_foreach_cb name t p₁).2 =
      p₁.2 ++ [Event.tagNotCommit t.refname] := by
    unfold tag_foreach_cb
    rw [if_neg (by simp [hname]), if_neg (by simp [hlk]), if_pos (by simp [hnc])]
  obtain ⟨l, hl, _⟩ := tagFold_events name u (tag_foreach_cb name t p₁)
  rw [hl, hstep]
  simp

theorem tag_foreach_cb_fst_congr (name : String) (t : TagEntry)
    (p q : Option Oid × List Event) (h : p.1 = q.1) :
    (tag_foreach_cb name t p).1 = (tag_foreach_cb name t q).1 := by
  unfold tag_foreach_cb
  by_cases h₁ : "refs/tags/" ++ name ≠ t.refname
  · rw [if_pos h₁, if_pos h₁]; exact h
  · rw [if_neg h₁, if_neg h₁]
    by_cases h₂ : ¬ t.lookupOk = true
    · rw [if_pos h₂, if_pos h₂]; exact h
    · rw [if_neg h₂, if_neg h₂]
      by_cases h₃ : ¬ t.isCommit = true
      · rw [if_pos h₃, if_pos h₃]; exact h
      · rw [if_neg h₃, if_neg h₃]

theorem tagFold_fst_congr (name : String) :
    ∀ (ts : List TagEntry) (p q : Option Oid × List Event), p.1 = q.1 →
      (ts.foldl (fun p t => tag_foreach_cb name t p) p).1 =
      (ts.foldl (fun p t => tag_foreach_cb name t p) q).1 := by
  intro ts
  induction ts with
  | nil => intro p q h; exact h
  | cons t ts ih =>
    intro p q h
    rw [List.foldl_cons, List.foldl_cons]
    exact ih _ _ (tag_foreach_cb_fst_congr name t p q h)

theorem tagFold_fst_nomatch (name : String) :
    ∀ (ts : List TagEntry) (p : Option Oid × List Event),
      (∀ t ∈ ts, t.refname ≠ "refs/tags/" ++ name) →
      (ts.foldl (fun p t => tag_foreach_cb name t p) p).1 = p.1 := by
  intro ts
  induction ts with
  | nil => intro p _; rfl
  | cons t ts ih =>
    intro p hall
    rw [List.foldl_cons]
    have hc : tag_foreach_cb name t p = p := by
      unfold tag_foreach_cb
      rw [if_pos (Ne.symm (hall t (List.mem_cons_self t ts)))]
    rw [hc]
    exact ih p (fun t₂ ht₂ => hall t₂ (List.mem_cons_of_mem t ht₂))

theorem tagFold_eq_find (name : String) :
    ∀ ts : List TagEntry, (ts.map TagEntry.refname).Nodup →
      (∀ t ∈ ts, t.lookupOk = true) →
      (ts.foldl (fun p t => tag_foreach_cb name t p) (none, [])).1 =
        (ts.find? (fun t => t.refname == "refs/tags/" ++ name)).bind
          (fun t => if t.lookupOk ∧ t.isCommit then some t.target else none) := by
  intro ts
  induction ts with
  | nil => intro _ _; simp
  | cons t ts ih =>
    intro hnd hlk
    rw [List.foldl_cons]
    by_cases hm : (t.refname == "refs/tags/" ++ name) = true
    · have hme : t.refname = "refs/tags/" ++ name := by simpa using hm
      rw [@List.find?_cons_of_pos TagEntry
        (fun t => t.refname == "refs/tags/" ++ name) t ts hm]
      have hlkt : t.lookupOk = true := hlk t (List.mem_cons_self t ts)
      have hnomatch : ∀ t₂ ∈ ts, t₂.refname ≠ "refs/tags/" ++ name := by
        intro t₂ ht₂ hcontra
        have : t.refname ∈ ts.map TagEntry.refname := by
          rw [hme, ← hcontra]
          exact List.mem_map_of_mem TagEntry.refname ht₂
        exact (List.nodup_cons.mp hnd).1 this
      by_cases hc : t.isCommit = true
      · have hcb : tag_foreach_cb name t (none, []) = (some t.target, []) := by
          unfold tag_foreach_cb
          rw [if_neg (by simp [hme]), if_neg (by simp [hlkt]),
            if_neg (by simp [hc])]
        rw [hcb, tagFold_fst_nomatch name ts _ hnomatch]
        simp [hlkt, hc]
      · have hcb : tag_foreach_cb name t (none, []) =
            (none, [Event.tagNotCommit t.refname]) := by
          unfold tag_foreach_cb
          rw [if_neg (by simp [hme]), if_neg (by simp [hlkt]),
            if_pos (by simp [Bool.eq_false_iff.mpr hc])]
          rfl
        rw [hcb, tagFold_fst_nomatch name ts _ hnomatch]
        simp [hlkt, hc]
    · have hme : t.refname ≠ "refs/tags/" ++ name := by simpa using hm
      have hcb : tag_foreach_cb name t (none, []) = (none, []) := by
        unfold tag_foreach_cb
        rw [if_pos (Ne.symm hme)]
      rw [hcb, @List.find?_cons_of_neg TagEntry
        (fun t => t.refname == "refs/tags/" ++ name) t ts (by simpa using hme)]
      exact ih (List.nodup_cons.mp hnd).2
        (fun t₂ ht₂ => hlk t₂ (List.mem_cons_of_mem t ht₂))

theorem tagScan_eq_find (repo : Repo) (name : String)
    (hnd : (repo.tags.map TagEntry.refname).Nodup)
    (hlk : ∀ t ∈ repo.tags, t.lookupOk = true) :
    (tagScan repo name).1 =
      (repo.tags.find? (fun t => t.refname == "refs/tags/" ++ name)).bind
        (fun t => if t.lookupOk ∧ t.isCommit then some t.target else none) :=
  tagFold_eq_find name repo.tags hnd hlk

theorem lookup_events_no_branch (repo : Repo) (nm : String) :
    ∀ ev ∈ (lookup_target repo nm).2, ev.branchName? = none := by
  intro ev hev
  unfold lookup_target at hev
  split at hev
  · simp at hev
  · split at hev
    · simp at hev
    · split at hev
      · simp at hev
      · obtain ⟨l, hl, hn⟩ := tagFold_events nm repo.tags (none, [])
        unfold tagScan at hev
        rw [hl] at hev
        exact hn ev (by simpa using hev)

/-! ### Claim theorems -/

/-- A repository in which the target string matches no commit id, branch or
tag. -/
def c5Repo : Repo where
  branches := [⟨.loc, "main", true, some 5⟩]
  tags := []
  mergeBase := fun _ _ => none
  commitLookupOk := fun _ => true
  checkout := fun _ => .ok
  setTargetOk := fun _ => true
  commitTime := fun _ => some 0

/-- git-ff invoked as `git-ff nosuch` (apply mode, no branch arguments). -/
def c5Params : Params where
  not_ff := false
  only_ff := false
  list := false
  verbose := true
  all := false
  branches := []
  target := "nosuch"

/-- C5: the claim says a target that resolves to no commit, branch or tag
is fatal with process exit status 1.  The code does print "Can't resolve"
and classifies or mutates no branch, but `do_ff` jumps to `out` with its
`error` variable still 0, so `main` returns 0: the process exit status on
an unresolved target is 0, not 1. -/
theorem c5_unresolved_target_exit_status :
    (lookup_target c5Repo "nosuch").1 = none ∧
    (do_ff c5Repo c5Params).branches = c5Repo.branches ∧
    (do_ff c5Repo c5Params).events = [Event.cantResolve "nosuch"] ∧
    (do_ff c5Repo c5Params).err = 0 ∧
    gitFfMainExit c5Repo c5Params = 0 := by decide

/-- A repository whose first local branch has a NULL reference target; the
second local branch is the (resolvable) target. -/
def c8Repo : Repo where
  branches := [⟨.loc, "broken", false, none⟩, ⟨.loc, "t", false, some 7⟩]
  tags := []
  mergeBase := fun a b => if a = 7 ∧ b = 7 then some 7 else none
  commitLookupOk := fun _ => true
  checkout := fun _ => .ok
  setTargetOk := fun _ => true
  commitTime := fun _ => some 0

/-- git-ff invoked as `git-ff --all t`. -/
def c8Params : Params where
  not_ff := false
  only_ff := false
  list := false
  verbose := true
  all := true
  branches := []
  target := "t"

/-- C8 counterexample: in `do_ff` a branch whose reference target cannot
be resolved is not skipped with a warning — the NULL tip is handed to
`git_merge_base`, whose error aborts the whole run: no event is printed
(in particular no warning and no report for the later branch `t`, which
would have been `already on`), the returned error is negative and the
process exits 1.  This falsifies the claim for the fast-forward tool. -/
theorem c8_counterexample :
    (do_ff c8Repo c8Params).err = -1 ∧
    (do_ff c8Repo c8Params).events = [] ∧
    (do_ff c8Repo c8Params).branches = c8Repo.branches ∧
    gitFfMainExit c8Repo c8Params = 1 := by decide

/-- C8 amended: only the recency listing (git-recent) skips a branch whose
reference target cannot be resolved, emitting the warning and continuing
with the remaining branches; the fast-forward tool has no such guard — in
`do_ff` a NULL tip reaches the merge-base query and the resulting error
aborts the whole run with the remaining branches unprocessed. -/
theorem c8_null_tip_amended (repo : Repo) (pfx : String) (st : RecState)
    (b : BranchRef) (bs : List BranchRef) (params : Params) (ho : Bool)
    (target : Oid) (err : Int)
    (hpfx : is_prefix b.name pfx = true)
    (htip : b.tip = none)
    (hk : b.kind = BranchKind.loc)
    (hsel₁ : ho = true → b.isHead = true)
    (hsel₃ : params.branches.isEmpty = false →
      params.branches.contains b.name = true) :
    recLoop repo pfx st (b :: bs) =
      recLoop repo pfx
        { st with maxLen := max st.maxLen b.name.length,
                  warnings := st.warnings ++ [Event.cantGetCommit b.name] }
        bs ∧
    ffStep repo params ho target err b = (b, [], -1, true) ∧
    ffLoop repo params ho target err (b :: bs) = (b :: bs, [], -1) := by
  obtain ⟨h₁, h₂⟩ := ffStep_filters_false params ho b hsel₁ hsel₃
  have hstep := ffStep_nulltip repo params ho target err b h₁ h₂ htip
  refine ⟨?_, hstep, ?_⟩
  · simp only [recLoop]
    rw [if_neg (by simp [hpfx]), htip]
  · exact ffLoop_cons_abort repo params ho target err b bs b [] (-1) hk hstep

theorem c8_null_tip_amended_witness :
    recLoop c8Repo "" ⟨0, [], []⟩
        (⟨BranchKind.loc, "broken", false, none⟩ ::
          [⟨BranchKind.loc, "t", false, some 7⟩]) =
      recLoop c8Repo ""
        ⟨max 0 "broken".length, [], [Event.cantGetCommit "broken"]⟩
        [⟨BranchKind.loc, "t", false, some 7⟩] ∧
    ffStep c8Repo c8Params false 7 0
        ⟨BranchKind.loc, "broken", false, none⟩ =
      (⟨BranchKind.loc, "broken", false, none⟩, [], -1, true) ∧
    ffLoop c8Repo c8Params false 7 0
        (⟨BranchKind.loc, "broken", false, none⟩ ::
          [⟨BranchKind.loc, "t", false, some 7⟩]) =
      (⟨BranchKind.loc, "broken", false, none⟩ ::
        [⟨BranchKind.loc, "t", false, some 7⟩], [], -1) :=
  c8_null_tip_amended c8Repo "" ⟨0, [], []⟩
    ⟨BranchKind.loc, "broken", false, none⟩
    [⟨BranchKind.loc, "t", false, some 7⟩] c8Params false 7 0
    (by decide) rfl rfl (fun h => absurd h (by decide))
    (fun h => absurd h (by decide))

/-- Seventeen local branches `a` … `q`, enumerated in alphabetical order,
all of whose tip commits carry the same timestamp. -/
def c6Repo : Repo where
  branches :=
    [⟨.loc, "a", false, some 0⟩, ⟨.loc, "b", false, some 1⟩,
     ⟨.loc, "c", false, some 2⟩, ⟨.loc, "d", false, some 3⟩,
     ⟨.loc, "e", false, some 4⟩, ⟨.loc, "f", false, some 5⟩,
     ⟨.loc, "g", false, some 6⟩, ⟨.loc, "h", false, some 7⟩,
     ⟨.loc, "i", false, some 8⟩, ⟨.loc, "j", false, some 9⟩,
     ⟨.loc, "k", false, some 10⟩, ⟨.loc, "l", false, some 11⟩,
     ⟨.loc, "m", false, some 12⟩, ⟨.loc, "n", false, some 13⟩,
     ⟨.loc, "o", false, some 14⟩, ⟨.loc, "p", false, some 15⟩,
     ⟨.loc, "q", false, some 16⟩]
  tags := []
  mergeBase := fun _ _ => none
  commitLookupOk := fun _ => false
  checkout := fun _ => .err
  setTargetOk := fun _ => false
  commitTime := fun _ => some 100

/-- C6 counterexample: on seventeen branches with equal tip timestamps the
listing's `std::sort` (introsort, as implemented by libstdc++) permutes
equal-timestamp entries: branch `b` is enumerated before branch `c`, both
carry timestamp 100, yet the output lists `c` before `b`.  The tie-break
is therefore not the enumeration order. -/
theorem c6_counterexample :
    ((recIterate c6Repo .loc).map BranchRef.name).indexOf "b" <
      ((recIterate c6Repo .loc).map BranchRef.name).indexOf "c" ∧
    (∀ e ∈ (recentRun c6Repo .loc "").entries, e.last = 100) ∧
    (recentRun c6Repo .loc "").fatal = false ∧
    ((recentRun c6Repo .loc "").entries.map RecEntry.name).indexOf "c" <
      ((recentRun c6Repo .loc "").entries.map RecEntry.name).indexOf "b" := by
  decide

/-- C6 amended: the recency listing outputs a permutation of the collected
entries ordered by tip-commit timestamp descending, and, being a pure
function of the enumerated sequence, it is deterministic on unchanged
input; but the relative order of equal-timestamp branches is the
implementation-defined permutation produced by `std::sort`, which need not
be the enumeration order. -/
theorem c6_sort_amended (repo : Repo) (flags : RecFlags) (pfx : String)
    (h : (recentRun repo flags pfx).fatal = false) :
    List.Perm (recentRun repo flags pfx).entries
      (recLoop repo pfx ⟨0, [], []⟩ (recIterate repo flags)).1.results ∧
    (recentRun repo flags pfx).entries.Pairwise
      (fun a b => b.last ≤ a.last) := by
  have hasym : ∀ a b : RecEntry, recLt a b = true → recLt b a = false := by
    intro a b hab
    simp only [recLt, decide_eq_true_eq] at hab
    simp only [recLt, decide_eq_false_iff_not]
    omega
  have hneg : ∀ a b c : RecEntry, recLt a b = false → recLt b c = false →
      recLt a c = false := by
    intro a b c h₁ h₂
    simp only [recLt, decide_eq_false_iff_not] at h₁ h₂ ⊢
    omega
  simp only [recentRun] at h ⊢
  by_cases hf : (recLoop repo pfx ⟨0, [], []⟩ (recIterate repo flags)).2
  · rw [if_pos hf] at h
    simp at h
  · rw [if_neg hf]
    constructor
    · exact cppSort_perm recLt _
    · exact List.Pairwise.imp
        (fun hab => by
          simpa only [recLt, decide_eq_false_iff_not, Int.not_lt] using hab)
        (cppSort_pairwise recLt hasym hneg _)

/-- Two local branches with distinct timestamps, for instantiating the
amended recency theorem. -/
def c6wRepo : Repo where
  branches := [⟨.loc, "x", false, some 1⟩, ⟨.loc, "y", true, some 2⟩]
  tags := []
  mergeBase := fun _ _ => none
  commitLookupOk := fun _ => false
  checkout := fun _ => .err
  setTargetOk := fun _ => false
  commitTime := fun o => some (o : Int)

theorem c6_sort_amended_witness :
    (recentRun c6wRepo .loc "").fatal = false ∧
    (List.Perm (recentRun c6wRepo .loc "").entries
      (recLoop c6wRepo "" ⟨0, [], []⟩ (recIterate c6wRepo .loc)).1.results ∧
     (recentRun c6wRepo .loc "").entries.Pairwise
       (fun a b => b.last ≤ a.last)) :=
  ⟨by decide, c6_sort_amended c6wRepo .loc "" (by decide)⟩

/-- C9: in a completed run of the recency listing, the column width
`max_len` is the maximum name length over every enumerated branch — the
prefix filter is applied after the width update — so it does not depend on
the remote prefix used for filtering. -/
theorem c9_maxlen_unfiltered (repo : Repo) (pfx pfx₂ : String)
    (h : (recentRun repo .rem pfx).fatal = false)
    (h₂ : (recentRun repo .rem pfx₂).fatal = false) :
    (recentRun repo .rem pfx).maxLen =
      (recIterate repo .rem).foldl (fun m b => max m b.name.length) 0 ∧
    (recentRun repo .rem pfx).maxLen = (recentRun repo .rem pfx₂).maxLen := by
  have key : ∀ p : String, (recentRun repo .rem p).fatal = false →
      (recentRun repo .rem p).maxLen =
        (recIterate repo .rem).foldl (fun m b => max m b.name.length) 0 := by
    intro p hp
    simp only [recentRun] at hp ⊢
    by_cases hf : (recLoop repo p ⟨0, [], []⟩ (recIterate repo .rem)).2
    · rw [if_pos hf] at hp
      simp at hp
    · rw [if_neg hf]
      exact recLoop_maxLen repo p (recIterate repo .rem) ⟨0, [], []⟩
        (by simpa using hf)
  exact ⟨key pfx h, (key pfx h).trans (key pfx₂ h₂).symm⟩

/-- Two remote branches under different remotes, one of them with a longer
name, for instantiating the width theorem. -/
def c9wRepo : Repo where
  branches := [⟨.rem, "origin/feature-long-name", false, some 1⟩,
               ⟨.rem, "other/a", false, some 2⟩]
  tags := []
  mergeBase := fun _ _ => none
  commitLookupOk := fun _ => false
  checkout := fun _ => .err
  setTargetOk := fun _ => false
  commitTime := fun _ => some 3

theorem c9_maxlen_unfiltered_witness :
    ((recentRun c9wRepo .rem "origin/").fatal = false ∧
     (recentRun c9wRepo .rem "other/").fatal = false) ∧
    ((recentRun c9wRepo .rem "origin/").maxLen =
      (recIterate c9wRepo .rem).foldl (fun m b => max m b.name.length) 0 ∧
     (recentRun c9wRepo .rem "origin/").maxLen =
      (recentRun c9wRepo .rem "other/").maxLen) :=
  ⟨⟨by decide, by decide⟩,
   c9_maxlen_unfiltered c9wRepo "origin/" "other/" (by decide) (by decide)⟩

/-- C1: target resolution tries, in order, literal commit id, local
branch tip, remote branch tip, tag scan, and returns the first success
(equal to the strategy list written down in `resolve_spec`, in any
repository whose found branch references have non-NULL targets, whose
tags are readable and whose tag refnames are distinct); and every string
that parses as a commit id resolves to that id without consulting
branches or tags. -/
theorem c1_resolution_order (repo : Repo) (name : String)
    (hb : ∀ tip, branchLookup repo .loc name = some tip → tip.isSome = true)
    (hb₂ : ∀ tip, branchLookup repo .rem name = some tip → tip.isSome = true)
    (hlk : ∀ t ∈ repo.tags, t.lookupOk = true)
    (hnd : (repo.tags.map TagEntry.refname).Nodup) :
    (lookup_target repo name).1 = resolve_spec repo name ∧
    ∀ oid, git_oid_fromstr name = some oid →
      (lookup_target repo name).1 = some oid := by
  constructor
  · simp only [lookup_target, resolve_spec]
    cases hp : git_oid_fromstr name with
    | some oid => simp [Option.orElse]
    | none =>
      simp only [Option.orElse]
      cases hl : branchLookup repo .loc name with
      | some tip =>
        cases tip with
        | none => exact absurd (hb none hl) (by simp)
        | some o => simp [Option.orElse, Option.bind]
      | none =>
        simp only [Option.orElse, Option.bind]
        cases hr : branchLookup repo .rem name with
        | some tip =>
          cases tip with
          | none => exact absurd (hb₂ none hr) (by simp)
          | some o => simp [Option.orElse, Option.bind]
        | none =>
          simp only [Option.orElse, Option.bind]
          exact tagScan_eq_find repo name hnd hlk
  · intro oid hp
    simp [lookup_target, hp]

/-- A 40-character hex string that is also the name of a local branch with
a different tip: the commit-id strategy must win. -/
def c1wName : String := "aaaaaaaaaaaaaaaaaaaaaaaaaaaaaaaaaaaaaaaa"

def c1wOid : Oid := 0xaaaaaaaaaaaaaaaaaaaaaaaaaaaaaaaaaaaaaaaa

def c1wRepo : Repo where
  branches := [⟨.loc, c1wName, true, some 3⟩]
  tags := [⟨"refs/tags/v1", true, true, 9⟩]
  mergeBase := fun _ _ => none
  commitLookupOk := fun _ => true
  checkout := fun _ => .ok
  setTargetOk := fun _ => true
  commitTime := fun _ => some 0

theorem c1_resolution_order_witness :
    (lookup_target c1wRepo c1wName).1 = resolve_spec c1wRepo c1wName ∧
    (lookup_target c1wRepo c1wName).1 = some c1wOid := by
  have hb : ∀ tip, branchLookup c1wRepo .loc c1wName = some tip →
      tip.isSome = true := by
    intro tip h
    have he : branchLookup c1wRepo .loc c1wName = some (some 3) := by decide
    rw [he] at h
    cases h
    rfl
  have hb₂ : ∀ tip, branchLookup c1wRepo .rem c1wName = some tip →
      tip.isSome = true := by
    intro tip h
    have he : branchLookup c1wRepo .rem c1wName = none := by decide
    rw [he] at h
    cases h
  have hmain := c1_resolution_order c1wRepo c1wName hb hb₂
    (by decide) (by decide)
  exact ⟨hmain.1, hmain.2 c1wOid (by decide)⟩

/-- C2: a branch whose tip equals the resolved target is reported
"already on" the target and never advanced: in apply mode the iteration
emits exactly the already-on line, leaves the branch record untouched
over the whole run, and in list mode the results entry has the
up-to-date flag set and never renders as a fast-forward line. -/
theorem c2_uptodate_never_ff (repo : Repo) (params : Params) (target : Oid)
    (b : BranchRef)
    (hres : (lookup_target repo params.target).1 = some target)
    (hk : b.kind = BranchKind.loc)
    (htip : b.tip = some target)
    (hmb : repo.mergeBase target target = some target)
    (hsel₁ : ffHeadOnly params = true → b.isHead = true)
    (hsel₃ : params.branches.isEmpty = false →
      params.branches.contains b.name = true) :
    (∀ err, ffStep repo params (ffHeadOnly params) target err b =
      (b, [Event.alreadyOn b.name params.target], 0, false)) ∧
    List.Forall₂ (fun c c' => c = b → c' = b)
      repo.branches (do_ff repo params).branches ∧
    (b ∈ repo.branches → 0 ≤ (do_ff repo params).err →
      Event.alreadyOn b.name params.target ∈ (do_ff repo params).events) ∧
    (∀ m, mapFind (listStep repo params target m b).1 b.name =
      some ⟨true, b.isHead, true⟩) ∧
    (params.verbose = true → params.not_ff = false →
      renderEntry params b.name ⟨true, b.isHead, true⟩ =
        some (ListLine.alreadyOn b.isHead b.name params.target)) ∧
    (∀ mk tgt, renderEntry params b.name ⟨true, b.isHead, true⟩ ≠
      some (ListLine.ffTo mk b.name tgt)) := by
  obtain ⟨h₁, h₂⟩ := ffStep_filters_false params (ffHeadOnly params) b
    hsel₁ hsel₃
  have hstep : ∀ err, ffStep repo params (ffHeadOnly params) target err b =
      (b, [Event.alreadyOn b.name params.target], 0, false) :=
    fun err => ffStep_uptodate repo params (ffHeadOnly params) target err b
      h₁ h₂ htip hmb
  obtain ⟨o, evs, hlt, ho⟩ :
      ∃ o evs, lookup_target repo params.target = (o, evs) ∧
        o = some target := by
    refine ⟨(lookup_target repo params.target).1,
      (lookup_target repo params.target).2, rfl, hres⟩
  subst ho
  have hfiltL : (!params.branches.isEmpty
      && !params.branches.contains b.name) = false := by
    cases hemp : params.branches.isEmpty with
    | true => simp [hemp]
    | false => rw [hsel₃ hemp]; simp
  refine ⟨hstep, ?_, ?_, ?_, ?_, ?_⟩
  · simp only [do_ff, hlt]
    refine List.Forall₂.imp ?_
      (ffLoop_frame repo params (ffHeadOnly params) target repo.branches 0)
    intro c c' hcc hc
    subst hc
    rcases hcc with rfl | ⟨e, rfl⟩
    · rfl
    · rw [hstep e]
  · intro hmem herr
    simp only [do_ff, hlt] at herr ⊢
    refine List.mem_append_right _ ?_
    exact ffLoop_events_of_mem repo params (ffHeadOnly params) target b
      [Event.alreadyOn b.name params.target] 0 hstep hk repo.branches 0
      hmem herr _ (by simp)
  · intro m
    simp only [listStep]
    rw [hfiltL, htip]
    simp only [Bool.false_eq_true, if_false]
    rw [hmb]
    simp only [eq_self_iff_true, if_true]
    rw [mapFind_mapUpd_self, mapFind_mapUpd_self, mapFind_mapUpd_self]
    simp
  · intro hv hn
    simp [renderEntry, hv, hn]
  · intro mk tgt
    unfold renderEntry
    split_ifs <;> simp_all

/-- One checked-out local branch already on the target. -/
def c2wRepo : Repo where
  branches := [⟨.loc, "m", true, some 5⟩]
  tags := []
  mergeBase := fun a b => if a = 5 ∧ b = 5 then some 5 else none
  commitLookupOk := fun _ => true
  checkout := fun _ => .ok
  setTargetOk := fun _ => true
  commitTime := fun _ => some 0

/-- git-ff invoked as `git-ff m` (head-only apply mode). -/
def c2wParams : Params where
  not_ff := false
  only_ff := false
  list := false
  verbose := true
  all := false
  branches := []
  target := "m"

theorem c2_uptodate_never_ff_witness :
    ffStep c2wRepo c2wParams (ffHeadOnly c2wParams) 5 0
        ⟨BranchKind.loc, "m", true, some 5⟩ =
      (⟨BranchKind.loc, "m", true, some 5⟩,
        [Event.alreadyOn "m" "m"], 0, false) ∧
    Event.alreadyOn "m" "m" ∈ (do_ff c2wRepo c2wParams).events := by
  have h := c2_uptodate_never_ff c2wRepo c2wParams 5
    ⟨BranchKind.loc, "m", true, some 5⟩
    (by decide) rfl rfl (by decide) (fun _ => rfl)
    (fun hemp => absurd hemp (by decide))
  exact ⟨h.1 0, h.2.2.1 (by decide) (by decide)⟩

/-- C3: a fast-forwardable checked-out branch whose working-tree checkout
reports a conflict is aborted without any reference mutation (the branch
record is unchanged — the reference rewrite sits strictly after the
successful-checkout path), the conflict is reported, and the loop
continues with the remaining branches instead of aborting the run. -/
theorem c3_checkout_conflict_recoverable (repo : Repo) (params : Params)
    (target : Oid) (b : BranchRef) (tip : Oid)
    (hres : (lookup_target repo params.target).1 = some target)
    (hk : b.kind = BranchKind.loc)
    (hhead : b.isHead = true)
    (hsel₃ : params.branches.isEmpty = false →
      params.branches.contains b.name = true)
    (htip : b.tip = some tip)
    (hmb : repo.mergeBase tip target = some tip)
    (hne : tip ≠ target)
    (hlkc : repo.commitLookupOk target = true)
    (hcf : repo.checkout b.name = CheckoutRes.conflict) :
    (∀ ho err, ffStep repo params ho target err b =
      (b, [Event.conflict b.name], 1, false)) ∧
    (∀ ho (bs : List BranchRef) err,
      ffLoop repo params ho target err (b :: bs) =
        (b :: (ffLoop repo params ho target 1 bs).1,
         Event.conflict b.name :: (ffLoop repo params ho target 1 bs).2.1,
         (ffLoop repo params ho target 1 bs).2.2)) ∧
    List.Forall₂ (fun c c' => c = b → c' = b)
      repo.branches (do_ff repo params).branches ∧
    (b ∈ repo.branches → 0 ≤ (do_ff repo params).err →
      Event.conflict b.name ∈ (do_ff repo params).events) := by
  have h₂ : (!params.all && !params.branches.isEmpty
      && !params.branches.contains b.name) = false := by
    cases hemp : params.branches.isEmpty with
    | true => simp [hemp]
    | false => rw [hsel₃ hemp]; simp
  have hstep : ∀ ho err, ffStep repo params ho target err b =
      (b, [Event.conflict b.name], 1, false) := fun ho err =>
    ffStep_conflict repo params ho target err b tip (by simp [hhead]) h₂
      hhead htip hmb hne hlkc hcf
  obtain ⟨o, evs, hlt, ho⟩ :
      ∃ o evs, lookup_target repo params.target = (o, evs) ∧
        o = some target := by
    refine ⟨(lookup_target repo params.target).1,
      (lookup_target repo params.target).2, rfl, hres⟩
  subst ho
  refine ⟨hstep, ?_, ?_, ?_⟩
  · intro ho bs err
    exact ffLoop_cons_cont repo params ho target err b bs b
      [Event.conflict b.name] 1 hk (hstep ho err)
  · simp only [do_ff, hlt]
    refine List.Forall₂.imp ?_
      (ffLoop_frame repo params (ffHeadOnly params) target repo.branches 0)
    intro c c' hcc hc
    subst hc
    rcases hcc with rfl | ⟨e, rfl⟩
    · rfl
    · rw [hstep _ e]
  · intro hmem herr
    simp only [do_ff, hlt] at herr ⊢
    refine List.mem_append_right _ ?_
    exact ffLoop_events_of_mem repo params (ffHeadOnly params) target b
      [Event.conflict b.name] 1 (hstep _) hk repo.branches 0
      hmem herr _ (by simp)

/-- A checked-out branch one commit behind the target with a conflicting
working tree, and a second behind branch that still gets processed. -/
def c3wRepo : Repo where
  branches := [⟨.loc, "head", true, some 1⟩, ⟨.loc, "other", false, some 1⟩,
               ⟨.loc, "t", false, some 2⟩]
  tags := []
  mergeBase := fun a b =>
    if a = 1 ∧ b = 2 then some 1 else if a = 2 ∧ b = 2 then some 2 else none
  commitLookupOk := fun _ => true
  checkout := fun n => if n = "head" then .conflict else .ok
  setTargetOk := fun _ => true
  commitTime := fun _ => some 0

/-- git-ff invoked as `git-ff --all t`. -/
def c3wParams : Params where
  not_ff := false
  only_ff := false
  list := false
  verbose := true
  all := true
  branches := []
  target := "t"

theorem c3_checkout_conflict_recoverable_witness :
    ffStep c3wRepo c3wParams false 2 0 ⟨BranchKind.loc, "head", true, some 1⟩ =
      (⟨BranchKind.loc, "head", true, some 1⟩,
        [Event.conflict "head"], 1, false) ∧
    Event.conflict "head" ∈ (do_ff c3wRepo c3wParams).events ∧
    Event.fastForwarded "other" "t" ∈ (do_ff c3wRepo c3wParams).events := by
  have h := c3_checkout_conflict_recoverable c3wRepo c3wParams 2
    ⟨BranchKind.loc, "head", true, some 1⟩ 1
    (by decide) rfl rfl (fun hemp => absurd hemp (by decide))
    rfl (by decide) (by decide) (by decide) (by decide)
  exact ⟨h.1 false 0, h.2.2.2 (by decide) (by decide), by decide⟩

/-- C4: a branch that is diverged (merge base neither endpoint) or already
up to date (tip equals target) is terminal in apply mode: the iteration
emits exactly one report line, leaves the branch record unchanged, and
over the whole run the branch's stored tip is not mutated. -/
theorem c4_terminal_states_no_mutation (repo : Repo) (params : Params)
    (target : Oid) (b : BranchRef) (tip mb : Oid)
    (hres : (lookup_target repo params.target).1 = some target)
    (hk : b.kind = BranchKind.loc)
    (hsel₁ : ffHeadOnly params = true → b.isHead = true)
    (hsel₃ : params.branches.isEmpty = false →
      params.branches.contains b.name = true)
    (htip : b.tip = some tip)
    (hmb : repo.mergeBase tip target = some mb)
    (hcase : (mb ≠ tip ∧ mb ≠ target) ∨ (tip = target ∧ mb = tip)) :
    (∀ err, ffStep repo params (ffHeadOnly params) target err b =
        (b, [Event.notPossible b.name], 0, false) ∨
      ffStep repo params (ffHeadOnly params) target err b =
        (b, [Event.alreadyOn b.name params.target], 0, false)) ∧
    List.Forall₂ (fun c c' => c = b → c' = b)
      repo.branches (do_ff repo params).branches := by
  obtain ⟨h₁, h₂⟩ := ffStep_filters_false params (ffHeadOnly params) b
    hsel₁ hsel₃
  have hstep : ∀ err,
      ffStep repo params (ffHeadOnly params) target err b =
        (b, [Event.notPossible b.name], 0, false) ∨
      ffStep repo params (ffHeadOnly params) target err b =
        (b, [Event.alreadyOn b.name params.target], 0, false) := by
    intro err
    rcases hcase with ⟨hd, _⟩ | ⟨he, hmbt⟩
    · exact Or.inl (ffStep_diverged repo params (ffHeadOnly params) target
        err b tip mb h₁ h₂ htip hmb (fun h => hd h.symm))
    · subst hmbt
      rw [he] at htip hmb
      exact Or.inr (ffStep_uptodate repo params (ffHeadOnly params) target
        err b h₁ h₂ htip hmb)
  obtain ⟨o, evs, hlt, ho⟩ :
      ∃ o evs, lookup_target repo params.target = (o, evs) ∧
        o = some target := by
    refine ⟨(lookup_target repo params.target).1,
      (lookup_target repo params.target).2, rfl, hres⟩
  subst ho
  refine ⟨hstep, ?_⟩
  · simp only [do_ff, hlt]
    refine List.Forall₂.imp ?_
      (ffLoop_frame repo params (ffHeadOnly params) target repo.branches 0)
    intro c c' hcc hc
    subst hc
    rcases hcc with rfl | ⟨e, rfl⟩
    · rfl
    · rcases hstep e with hs | hs <;> rw [hs]

/-- A checked-out branch diverged from the target (merge base is neither
endpoint). -/
def c4wRepo : Repo where
  branches := [⟨.loc, "d", true, some 1⟩, ⟨.loc, "t", false, some 2⟩]
  tags := []
  mergeBase := fun a b =>
    if a = 1 ∧ b = 2 then some 9 else if a = 2 ∧ b = 2 then some 2 else none
  commitLookupOk := fun _ => true
  checkout := fun _ => .ok
  setTargetOk := fun _ => true
  commitTime := fun _ => some 0

/-- git-ff invoked as `git-ff t` with branch `d` checked out. -/
def c4wParams : Params where
  not_ff := false
  only_ff := false
  list := false
  verbose := true
  all := false
  branches := []
  target := "t"

theorem c4_terminal_states_no_mutation_witness :
    (ffStep c4wRepo c4wParams (ffHeadOnly c4wParams) 2 0
        ⟨BranchKind.loc, "d", true, some 1⟩ =
      (⟨BranchKind.loc, "d", true, some 1⟩,
        [Event.notPossible "d"], 0, false) ∨
     ffStep c4wRepo c4wParams (ffHeadOnly c4wParams) 2 0
        ⟨BranchKind.loc, "d", true, some 1⟩ =
      (⟨BranchKind.loc, "d", true, some 1⟩,
        [Event.alreadyOn "d" "t"], 0, false)) ∧
    (do_ff c4wRepo c4wParams).branches = c4wRepo.branches := by
  have h := c4_terminal_states_no_mutation c4wRepo c4wParams 2
    ⟨BranchKind.loc, "d", true, some 1⟩ 1 9
    (by decide) rfl (fun _ => rfl) (fun hemp => absurd hemp (by decide))
    rfl (by decide) (Or.inl ⟨by decide, by decide⟩)
  exact ⟨h.1 0, by decide⟩

/-- C7: when the target string matches no commit id and no branch and the
only tags of that name do not point at a commit, resolution fails — the
tag callback prints its error and leaves the payload unsuccessful, and
`do_ff` prints "Can't resolve" and classifies or mutates no branch. -/
theorem c7_noncommit_tag_rejected (repo : Repo) (params : Params)
    (t : TagEntry)
    (hp : git_oid_fromstr params.target = none)
    (hbl : branchLookup repo .loc params.target = none)
    (hbr : branchLookup repo .rem params.target = none)
    (ht : t ∈ repo.tags)
    (hname : t.refname = "refs/tags/" ++ params.target)
    (hlk : t.lookupOk = true)
    (hnc : t.isCommit = false)
    (hall : ∀ t₂ ∈ repo.tags, t₂.refname = "refs/tags/" ++ params.target →
      t₂.isCommit = false) :
    (lookup_target repo params.target).1 = none ∧
    Event.tagNotCommit t.refname ∈ (lookup_target repo params.target).2 ∧
    (do_ff repo params).branches = repo.branches ∧
    (do_ff repo params).err = 0 ∧
    Event.cantResolve params.target ∈ (do_ff repo params).events ∧
    ∀ ev ∈ (do_ff repo params).events, ev.branchName? = none := by
  have hnone : (lookup_target repo params.target).1 = none := by
    simp only [lookup_target, hp, hbl, hbr]
    exact tagScan_none repo params.target
      (fun t₂ ht₂ hn₂ h₂ => by
        have := hall t₂ ht₂ hn₂
        rw [this] at h₂
        exact absurd h₂.2 (by simp))
  have hev : Event.tagNotCommit t.refname ∈
      (lookup_target repo params.target).2 := by
    simp only [lookup_target, hp, hbl, hbr]
    exact tagScan_event repo params.target t ht hname hlk hnc
  obtain ⟨evs, hlt⟩ : ∃ evs, lookup_target repo params.target =
      (none, evs) := by
    refine ⟨(lookup_target repo params.target).2, ?_⟩
    rw [← hnone]
  refine ⟨hnone, hev, ?_, ?_, ?_, ?_⟩
  · simp [do_ff, hlt]
  · simp [do_ff, hlt]
  · simp [do_ff, hlt]
  · intro ev hev₂
    simp only [do_ff, hlt] at hev₂
    rcases List.mem_append.mp hev₂ with h | h
    · exact lookup_events_no_branch repo params.target ev
        (by rw [hlt]; exact h)
    · simp at h
      subst h
      rfl

/-- A repository whose only tag of the requested name points at a tree
object, and a local branch that must stay untouched. -/
def c7wRepo : Repo where
  branches := [⟨.loc, "main", true, some 5⟩]
  tags := [⟨"refs/tags/v1", true, false, 9⟩]
  mergeBase := fun _ _ => none
  commitLookupOk := fun _ => true
  checkout := fun _ => .ok
  setTargetOk := fun _ => true
  commitTime := fun _ => some 0

/-- git-ff invoked as `git-ff v1`. -/
def c7wParams : Params where
  not_ff := false
  only_ff := false
  list := false
  verbose := true
  all := false
  branches := []
  target := "v1"

theorem c7_noncommit_tag_rejected_witness :
    (lookup_target c7wRepo "v1").1 = none ∧
    Event.tagNotCommit "refs/tags/v1" ∈ (lookup_target c7wRepo "v1").2 ∧
    (do_ff c7wRepo c7wParams).branches = c7wRepo.branches := by
  have h := c7_noncommit_tag_rejected c7wRepo c7wParams
    ⟨"refs/tags/v1", true, false, 9⟩
    (by decide) (by decide) (by decide) (by decide) rfl rfl rfl
    (by decide)
  exact ⟨h.1, h.2.1, h.2.2.1⟩

/-- C10: both tools enumerate with `GIT_BRANCH_LOCAL`: over any run of
`do_ff`, every remote branch record is unchanged and every per-branch
report line names a local branch; and every entry classified by `do_list`
is keyed by the name of a local branch — whatever branch set or target
the caller supplies. -/
theorem c10_local_branches_only (repo : Repo) (params : Params) :
    List.Forall₂ (fun b b' => b.kind = BranchKind.rem → b' = b)
      repo.branches (do_ff repo params).branches ∧
    (∀ ev ∈ (do_ff repo params).events, ∀ n, ev.branchName? = some n →
      ∃ b ∈ repo.branches, b.kind = BranchKind.loc ∧ b.name = n) ∧
    (∀ k r, (k, r) ∈ (do_list repo params).entries →
      ∃ b ∈ repo.branches, b.kind = BranchKind.loc ∧ b.name = k) := by
  obtain ⟨o, evs, hlt⟩ : ∃ o evs, lookup_target repo params.target =
      (o, evs) :=
    ⟨(lookup_target repo params.target).1,
     (lookup_target repo params.target).2, rfl⟩
  cases o with
  | none =>
    refine ⟨?_, ?_, ?_⟩
    · simp only [do_ff, hlt]
      exact List.forall₂_same.mpr (fun c _ _ => rfl)
    · simp only [do_ff, hlt]
      intro ev hev n hn
      rcases List.mem_append.mp hev with h | h
      · have hno := lookup_events_no_branch repo params.target ev
          (by rw [hlt]; exact h)
        rw [hn] at hno
        cases hno
      · simp at h
        subst h
        simp [Event.branchName?] at hn
    · simp only [do_list, hlt]
      intro k r h
      simp at h
  | some target =>
    refine ⟨?_, ?_, ?_⟩
    · simp only [do_ff, hlt]
      refine List.Forall₂.imp ?_
        (ffLoop_rem_frame repo params (ffHeadOnly params) target
          repo.branches 0)
      intro c c' hcc hrem
      exact hcc (by simp [hrem])
    · simp only [do_ff, hlt]
      intro ev hev n hn
      rcases List.mem_append.mp hev with h | h
      · have hno := lookup_events_no_branch repo params.target ev
          (by rw [hlt]; exact h)
        rw [hn] at hno
        cases hno
      · obtain ⟨c, hc, hcl, hcn⟩ := ffLoop_events_name repo params
          (ffHeadOnly params) target repo.branches 0 ev h
        rw [hn] at hcn
        injection hcn with hcn
        exact ⟨c, hc, hcl, hcn.symm⟩
    · simp only [do_list, hlt]
      intro k r h
      by_cases hf : (listLoop repo params target [] repo.branches).2.2
      · rw [if_pos hf] at h
        rcases listLoop_keys repo params target repo.branches [] k r h with
          ⟨r₂, h₂⟩ | ⟨c, hc, hcl, hcn⟩
        · simp at h₂
        · exact ⟨c, hc, hcl, hcn⟩
      · rw [if_neg hf] at h
        rcases listLoop_keys repo params target repo.branches [] k r h with
          ⟨r₂, h₂⟩ | ⟨c, hc, hcl, hcn⟩
        · simp at h₂
        · exact ⟨c, hc, hcl, hcn⟩

/-- A checked-out local branch already on the target next to a remote
branch of similar name. -/
def c10wRepo : Repo where
  branches := [⟨.loc, "m", true, some 1⟩, ⟨.rem, "origin/m", false, some 2⟩]
  tags := []
  mergeBase := fun a b => if a = b then some a else none
  commitLookupOk := fun _ => true
  checkout := fun _ => .ok
  setTargetOk := fun _ => true
  commitTime := fun _ => some 0

/-- git-ff invoked as `git-ff m`. -/
def c10wParams : Params where
  not_ff := false
  only_ff := false
  list := false
  verbose := true
  all := false
  branches := []
  target := "m"

theorem c10_local_branches_only_witness :
    ∃ b ∈ c10wRepo.branches, b.kind = BranchKind.loc ∧ b.name = "m" :=
  (c10_local_branches_only c10wRepo c10wParams).2.1
    (Event.alreadyOn "m" "m") (by decide) "m" rfl

end GitTools
